import Mathlib

/-!
# Verification of the `be-our-guest` asynchronous service container

A shallow embedding of `src/Services.ts` and `src/Log.ts`.

The registry core (`Services`) holds three maps keyed by dependency name:
`classes` (per-call factory bindings), `singletonCallbacks` (singleton
factories), and `singletons` (memoized results, i.e. the promises handed
out for singleton / instance resolutions).  JavaScript `Map` objects are
embedded as association lists with one entry per key (`mapSet` replaces).

Promises handed out by `get` are embedded as `PVal` tokens: a promise is
identified by where it came from, so `PVal` equality is promise identity
("the identical asynchronous value" / reference equality of the eventual
object).  `PVal.factoryCall f k` is the promise produced by the `k`-th
factory invocation performed by the container (a global invocation index),
so two distinct invocations of the same factory yield distinct,
non-reference-equal values.  `PVal.resolvedVal v` is
`Promise.resolve(v)` stored by `instance`.

The body of `get` up to and including the `singletons.set` insertion is
synchronous JavaScript (no `await` before the insertion), so in the
single-threaded cooperative model of the runtime it executes atomically:
each call to `get` is one atomic step here, and "concurrent" calls issued
while a factory's promise is still pending are simply later steps of a
trace (`run` over a list of `Op`).
-/

namespace BeOurGuest

/-- Dependency names: the opaque string keys of the registry. -/

abbrev Name := String

/-- The logging seam, from `src/Log.ts`: `info`/`error` forward to the
sinks unless `suppress` is set.  `infoCalls` / `errorCalls` record the
invocations of the corresponding sink, in order. -/

structure Log where
  suppress : Bool
  infoCalls : List String
  errorCalls : List String
deriving DecidableEq, Repr

/-- `Log.info` from `src/Log.ts`: invoke the info sink unless suppressed. -/

def Log.info (l : Log) (msg : String) : Log :=
  if l.suppress then l else { l with infoCalls := l.infoCalls ++ [msg] }

/-- `Log.error` from `src/Log.ts`: invoke the error sink unless suppressed. -/

def Log.error (l : Log) (msg : String) : Log :=
  if l.suppress then l else { l with errorCalls := l.errorCalls ++ [msg] }

/-- Which branch of `get` invoked a factory. -/

inductive Branch where
  | classBranch
  | singletonBranch
deriving DecidableEq, Repr

/-- A record of one factory invocation performed by the container:
which factory was invoked, under which name, and by which branch of
`get`. -/

structure Invocation where
  factory : Nat
  name : Name
  branch : Branch
deriving DecidableEq, Repr

/-- A promise handed out by the container; equality is promise identity. -/

inductive PVal where
  | resolvedVal : Nat → PVal
  | factoryCall : Nat → Nat → PVal
deriving DecidableEq, Repr

/-- JavaScript `Map.set`: replace the entry for the key, or append one. -/

def mapSet {α : Type} (m : List (Name × α)) (k : Name) (v : α) :
    List (Name × α) :=
  match m with
  | [] => [(k, v)]
  | (k', v') :: rest =>
    if k' = k then (k, v) :: rest else (k', v') :: mapSet rest k v

/-- JavaScript `Map.get` (with `Map.has k = (mapGet m k).isSome`). -/

def mapGet {α : Type} (m : List (Name × α)) (k : Name) : Option α :=
  match m with
  | [] => none
  | (k', v') :: rest => if k' = k then some v' else mapGet rest k

/-- The state of one `Services` container (`src/Services.ts`).  Factories
are identified by `Nat` tokens (their behaviour is user code outside the
container).  `invocations` is the chronological record of factory
invocations the container has performed; its length is the next global
invocation index. -/

structure ServicesState where
  classes : List (Name × Nat)
  singletonCallbacks : List (Name × Nat)
  singletons : List (Name × PVal)
  invocations : List Invocation
  log : Log
deriving DecidableEq, Repr

/-- `Services.bind`: store a class-composition closure. -/

def bind (s : ServicesState) (name : Name) (cb : Nat) : ServicesState :=
  { s with classes := mapSet s.classes name cb }

/-- `Services.singleton`: store a singleton callback. -/

def singleton (s : ServicesState) (name : Name) (cb : Nat) : ServicesState :=
  { s with singletonCallbacks := mapSet s.singletonCallbacks name cb }

/-- `Services.instance`: store `Promise.resolve(dependency)` as the
memoized result for `name`. -/

def instance' (s : ServicesState) (name : Name) (dependency : Nat) :
    ServicesState :=
  { s with singletons := mapSet s.singletons name (PVal.resolvedVal dependency) }

/-- The error message of `Services.get` for an unregistered name. -/

def notFoundMsg (name : Name) : String :=
  "The requested service of " ++ name ++ " does not exist in the container."

/-- The outcome of a `get` call: a promise, or `Promise.reject()`. -/

inductive GetResult where
  | ok : PVal → GetResult
  | rejected : GetResult
deriving DecidableEq, Repr

/-- `Services.classesHandler`: invoke the stored closure with the call's
arguments and hand its (fresh) result back. -/

def classesHandler (s : ServicesState) (name : Name) (cb : Nat) :
    GetResult × ServicesState :=
  (GetResult.ok (PVal.factoryCall cb s.invocations.length),
   { s with
      invocations :=
        s.invocations ++ [⟨cb, name, Branch.classBranch⟩] })

/-- `Services.get`: class binding first, then the memoized result, then
the singleton callback (whose pending promise is stored in `singletons`
in the same atomic step), else log the error and reject. -/

def get (s : ServicesState) (name : Name) : GetResult × ServicesState :=
  match mapGet s.classes name with
  | some cb => classesHandler s name cb
  | none =>
    match mapGet s.singletons name with
    | some p => (GetResult.ok p, s)
    | none =>
      match mapGet s.singletonCallbacks name with
      | some cb =>
        (GetResult.ok (PVal.factoryCall cb s.invocations.length),
         { s with
            singletons :=
              mapSet s.singletons name
                (PVal.factoryCall cb s.invocations.length),
            invocations :=
              s.invocations ++ [⟨cb, name, Branch.singletonBranch⟩] })
      | none =>
        (GetResult.rejected, { s with log := s.log.error (notFoundMsg name) })

/-- One atomic container operation of a trace. -/

inductive Op where
  | bindOp : Name → Nat → Op
  | singletonOp : Name → Nat → Op
  | instanceOp : Name → Nat → Op
  | getOp : Name → Op
deriving DecidableEq, Repr

/-- The state transition of one operation. -/

def step (s : ServicesState) : Op → ServicesState
  | Op.bindOp n cb => bind s n cb
  | Op.singletonOp n cb => singleton s n cb
  | Op.instanceOp n v => instance' s n v
  | Op.getOp n => (get s n).2

/-- Run a trace of operations against the container. -/

def run (s : ServicesState) (ops : List Op) : ServicesState :=
  ops.foldl step s

/-- A freshly constructed container (`new Services(log_overrides)`). -/

def initState (suppress : Bool) : ServicesState :=
  { classes := []
    singletonCallbacks := []
    singletons := []
    invocations := []
    log := { suppress := suppress, infoCalls := [], errorCalls := [] } }

/-- How many times the container has invoked a singleton factory for
`n` (via step 3 of `get`'s resolution order). -/

def singletonInvocationCount (s : ServicesState) (n : Name) : Nat :=
  s.invocations.countP
    (fun i => decide (i.name = n ∧ i.branch = Branch.singletonBranch))

/-! ## The at-most-once invariant for singleton factories

Step 3 of `get` fires only when the memoized map has no entry for the
name, and it inserts the entry in the same atomic step; since no
operation ever removes a memoized entry, the singleton branch can fire
at most once per name over the container's whole lifetime. -/

def SingInv (s : ServicesState) (n : Name) : Prop :=
  singletonInvocationCount s n ≤ 1 ∧
  (mapGet s.singletons n = none → singletonInvocationCount s n = 0)

/-! ## The lifecycle orchestrator (`add` and its helpers)

A provider instance (`ServiceProvider`) is a bundle of hooks.  A hook is
user code: the container models it by the container operations it
performs (`effects`) and whether it finally throws.  `registerProviders`
and `bootProviders` fan the providers' chains out with `Promise.all`;
within one chain the `await`s force strict sequencing, between chains
there is none, so a phase's possible event traces are the interleavings
of the per-chain event lists: each chain's events form a subsequence of
the trace, and the trace consists of exactly the chains' events. -/

/-- The six lifecycle hooks of `ServiceProvider`. -/

inductive HookTag where
  | beforeRegister
  | register
  | afterRegister
  | beforeBoot
  | boot
  | afterBoot
deriving DecidableEq, Repr

/-- One hook of a provider instance: the container operations its body
performs, and whether it raises an error at the end. -/

structure HookSpec where
  effects : List Op
  throws : Bool
deriving DecidableEq, Repr

/-- A provider instance: `register` is mandatory, the rest optional. -/

structure Provider where
  beforeRegister : Option HookSpec
  register : HookSpec
  afterRegister : Option HookSpec
  beforeBoot : Option HookSpec
  boot : Option HookSpec
  afterBoot : Option HookSpec
deriving DecidableEq, Repr

/-- An optional hook contributes to its chain only when present. -/

def optHook (t : HookTag) : Option HookSpec → List (HookTag × HookSpec)
  | none => []
  | some h => [(t, h)]

/-- The register-phase chain of one provider, in the order
`registerProviders` awaits them. -/

def registerHooks (p : Provider) : List (HookTag × HookSpec) :=
  optHook HookTag.beforeRegister p.beforeRegister
    ++ [(HookTag.register, p.register)]
    ++ optHook HookTag.afterRegister p.afterRegister

/-- The boot-phase chain of one provider, in the order `bootProviders`
awaits them. -/

def bootHooks (p : Provider) : List (HookTag × HookSpec) :=
  optHook HookTag.beforeBoot p.beforeBoot
    ++ optHook HookTag.boot p.boot
    ++ optHook HookTag.afterBoot p.afterBoot

/-- One hook execution: which provider (by its index in the
instantiated batch) ran which hook. -/

structure PEvent where
  provider : Nat
  tag : HookTag
deriving DecidableEq, Repr

/-- Execute one provider's chain of hooks sequentially: a rejected
`await` makes the throwing hook the last one executed, and the flag
reports whether the whole chain completed. -/

def runChain (i : Nat) : List (HookTag × HookSpec) → List PEvent × Bool
  | [] => ([], true)
  | (t, h) :: rest =>
    if h.throws then ([⟨i, t⟩], false)
    else
      let r := runChain i rest
      (⟨i, t⟩ :: r.1, r.2)

/-- Whether a chain runs to completion (no hook throws). -/

def chainOk (hooks : List (HookTag × HookSpec)) : Bool :=
  hooks.all (fun th => ! th.2.throws)

/-- The container operations performed by one chain: every executed
hook contributes its effects, up to and including the throwing one. -/

def chainOps : List (HookTag × HookSpec) → List Op
  | [] => []
  | (_, h) :: rest =>
    if h.throws then h.effects else h.effects ++ chainOps rest

def regEvents (i : Nat) (p : Provider) : List PEvent :=
  (runChain i (registerHooks p)).1

def regOk (p : Provider) : Bool := chainOk (registerHooks p)

def regChainOps (p : Provider) : List Op := chainOps (registerHooks p)

def bootEvents (i : Nat) (p : Provider) : List PEvent :=
  (runChain i (bootHooks p)).1

def bootOk (p : Provider) : Bool := chainOk (bootHooks p)

/-- The per-chain lists of a phase, each provider indexed by its
position in the batch. -/

def chainsFrom (f : Nat → Provider → List PEvent) :
    Nat → List Provider → List (List PEvent)
  | _, [] => []
  | i, p :: rest => f i p :: chainsFrom f (i + 1) rest

/-- `t` interleaves the given per-chain sequences: it consists of
exactly their elements and preserves each chain's internal order. -/

def Interleaving {α : Type} (chains : List (List α)) (t : List α) : Prop :=
  t.Perm chains.flatten ∧ ∀ c ∈ chains, c.Sublist t

/-- `Promise.all` of the register chains succeeds iff every chain runs
to completion. -/

def registerPhaseOk (ps : List Provider) : Bool := ps.all regOk

/-- Whether the `add` promise resolves or rejects. -/

inductive AddOutcome where
  | resolved
  | rejected
deriving DecidableEq, Repr

/-- `add` rejects exactly when its awaited register phase rejects;
boot-phase errors are caught per provider and never propagate. -/

def addOutcome (ps : List Provider) : AddOutcome :=
  if registerPhaseOk ps then AddOutcome.resolved else AddOutcome.rejected

def RegTrace (ps : List Provider) (t : List PEvent) : Prop :=
  Interleaving (chainsFrom regEvents 0 ps) t

def BootTrace (ps : List Provider) (t : List PEvent) : Prop :=
  Interleaving (chainsFrom bootEvents 0 ps) t

/-- The possible hook-event traces of one `add` call over the
instantiated providers `ps`: the register chains interleave; only when
all of them complete does `add` await them successfully and start the
boot phase, whose chains then interleave after the full register
phase. -/

def AddTrace (ps : List Provider) (t : List PEvent) : Prop :=
  if registerPhaseOk ps then
    ∃ rt bt, RegTrace ps rt ∧ BootTrace ps bt ∧ t = rt ++ bt
  else
    ∃ rt, RegTrace ps rt ∧ t = rt

/-- The `'Boot Failed'` report of `bootProviders` for the provider at
index `i` (the source passes the provider object and the exception as
further log arguments to identify it). -/

def bootFailedMsg (i : Nat) : String := "Boot Failed " ++ Nat.repr i

/-- The error-sink activity of the boot phase: each provider whose
chain throws is caught locally and reported. -/

def bootPhaseLog : Log → Nat → List Provider → Log
  | l, _, [] => l
  | l, i, p :: rest =>
    bootPhaseLog (if bootOk p then l else l.error (bootFailedMsg i))
      (i + 1) rest

/-- Register-phase hook classification. -/

def isRegisterTag : HookTag → Bool
  | HookTag.beforeRegister => true
  | HookTag.register => true
  | HookTag.afterRegister => true
  | _ => false

/-- Boot-phase hook classification. -/

def isBootTag : HookTag → Bool
  | HookTag.beforeBoot => true
  | HookTag.boot => true
  | HookTag.afterBoot => true
  | _ => false

/-- A provider whose `boot` hook throws (fixture for concrete runs). -/

def bootFailProvider : Provider :=
  ⟨none, ⟨[], false⟩, none, none, some ⟨[], true⟩, none⟩

/-- A provider whose full boot chain completes (fixture). -/

def bootOkProvider : Provider :=
  ⟨none, ⟨[], false⟩, none, none, some ⟨[], false⟩, none⟩

/-- A provider with a `beforeRegister` hook and a `boot` hook, all of
them completing (fixture for concrete runs). -/

def regBootProvider : Provider :=
  ⟨some ⟨[], false⟩, ⟨[], false⟩, none, none, some ⟨[], false⟩, none⟩

/-! ## Instantiation of provider definitions (`instantiateProviders`) -/

/-- A provider definition handed to `add`: the class's displayed name
(the source derives it from the constructor's textual representation
for the deferral log message), its optional static deferral predicate —
per the documented `() -> boolean` contract, modelled by the boolean it
returns when present — and the instance its constructor produces. -/

structure ProviderDef where
  name : String
  defer : Option Bool
  provider : Provider
deriving DecidableEq, Repr

/-- The informational log message for a deferred provider. -/

def deferMsg (name : String) : String :=
  "Deferred loading of " ++ name ++ "."

/-- One step of the `reduce` in `instantiateProviders`: a definition
whose static deferral predicate is present and returns true is skipped
with an info log; every other definition is constructed and appended. -/

def instantiateStep (acc : List Provider × Log) (d : ProviderDef) :
    List Provider × Log :=
  match d.defer with
  | some true => (acc.1, acc.2.info (deferMsg d.name))
  | _ => (acc.1 ++ [d.provider], acc.2)

/-- `instantiateProviders`: fold the definitions, in input order, into
the list of constructed instances. -/

def instantiateProviders (defs : List ProviderDef) (l : Log) :
    List Provider × Log :=
  defs.foldl instantiateStep ([], l)

/-- A provider whose `register` stores an instance under `"a"` and then
throws (fixture). -/

def partialRegisterProvider : Provider :=
  ⟨none, ⟨[Op.instanceOp "a" 5], true⟩, none, none, none, none⟩

/-! ## Map lemmas -/

theorem mapGet_set_self {α : Type} (m : List (Name × α)) (k : Name) (v : α) :
    mapGet (mapSet m k v) k = some v := by
  induction m with
  | nil => simp [mapSet, mapGet]
  | cons hd tl ih =>
    obtain ⟨k', v'⟩ := hd
    by_cases h : k' = k
    · simp [mapSet, mapGet, h]
    · simp [mapSet, mapGet, h, ih]

theorem mapGet_set_ne {α : Type} (m : List (Name × α)) (k k' : Name) (v : α)
    (h : k' ≠ k) : mapGet (mapSet m k v) k' = mapGet m k' := by
  induction m with
  | nil => simp [mapSet, mapGet, Ne.symm h]
  | cons hd tl ih =>
    obtain ⟨k₀, v₀⟩ := hd
    by_cases h₀ : k₀ = k
    · subst h₀
      simp [mapSet, mapGet, Ne.symm h]
    · simp [mapSet, mapGet, h₀, ih]

theorem mapGet_set_isSome {α : Type} (m : List (Name × α)) (k k' : Name)
    (v : α) (h : (mapGet m k').isSome) :
    (mapGet (mapSet m k v) k').isSome := by
  by_cases hk : k' = k
  · subst hk; simp [mapGet_set_self]
  · rw [mapGet_set_ne m k k' v hk]; exact h

theorem mapGet_set_none {α : Type} (m : List (Name × α)) (k k' : Name)
    (v : α) (h : mapGet (mapSet m k v) k' = none) :
    mapGet m k' = none := by
  by_cases hk : k' = k
  · subst hk; rw [mapGet_set_self] at h; exact absurd h (by simp)
  · rw [mapGet_set_ne m k k' v hk] at h; exact h

/-! ## Step lemmas: what each operation leaves untouched -/

theorem get_classes (s : ServicesState) (n : Name) :
    ((get s n).2).classes = s.classes := by
  unfold get classesHandler
  cases hc : mapGet s.classes n
  · cases hm : mapGet s.singletons n
    · cases hs : mapGet s.singletonCallbacks n
      · rfl
      · rfl
    · rfl
  · rfl

/-- `get` never disturbs an existing memoized entry. -/

theorem get_singletons_stable (s : ServicesState) (m n : Name) (p : PVal)
    (h : mapGet s.singletons n = some p) :
    mapGet ((get s m).2).singletons n = some p := by
  unfold get classesHandler
  cases hc : mapGet s.classes m
  · cases hm : mapGet s.singletons m
    · cases hs : mapGet s.singletonCallbacks m
      · exact h
      · by_cases hmn : m = n
        · subst hmn; rw [h] at hm; exact absurd hm (by simp)
        · simpa [mapGet_set_ne s.singletons m n _ (Ne.symm hmn)] using h
    · exact h
  · exact h

/-- A memoized entry survives any single operation other than
`instance` on its own name. -/

theorem step_singletons_stable (s : ServicesState) (n : Name) (p : PVal)
    (op : Op) (h : mapGet s.singletons n = some p)
    (hop : ∀ v, op ≠ Op.instanceOp n v) :
    mapGet ((step s op).singletons) n = some p := by
  cases op with
  | bindOp m cb => exact h
  | singletonOp m cb => exact h
  | instanceOp m v =>
    by_cases hmn : m = n
    · subst hmn; exact absurd rfl (hop v)
    · simpa [step, instance',
        mapGet_set_ne s.singletons m n _ (Ne.symm hmn)] using h
  | getOp m => exact get_singletons_stable s m n p h

theorem run_singletons_stable (s : ServicesState) (n : Name) (p : PVal)
    (ops : List Op) (h : mapGet s.singletons n = some p)
    (hops : ∀ v, Op.instanceOp n v ∉ ops) :
    mapGet ((run s ops).singletons) n = some p := by
  induction ops generalizing s with
  | nil => exact h
  | cons op rest ih =>
    have hop : ∀ v, op ≠ Op.instanceOp n v := by
      intro v hv
      exact hops v (by simp [hv])
    have hrest : ∀ v, Op.instanceOp n v ∉ rest := by
      intro v hv
      exact hops v (by simp [hv])
    exact ih (step s op) (step_singletons_stable s n p op h hop) hrest

/-- Memoized entries are never removed, by any operation at all. -/

theorem step_singletons_isSome (s : ServicesState) (n : Name) (op : Op)
    (h : (mapGet s.singletons n).isSome) :
    (mapGet ((step s op).singletons) n).isSome := by
  cases op with
  | bindOp m cb => exact h
  | singletonOp m cb => exact h
  | instanceOp m v => exact mapGet_set_isSome s.singletons m n _ h
  | getOp m =>
    obtain ⟨p, hp⟩ := Option.isSome_iff_exists.mp h
    show (mapGet ((get s m).2).singletons n).isSome
    rw [get_singletons_stable s m n p hp]; rfl

theorem run_singletons_isSome (s : ServicesState) (n : Name)
    (ops : List Op) (h : (mapGet s.singletons n).isSome) :
    (mapGet ((run s ops).singletons) n).isSome := by
  induction ops generalizing s with
  | nil => exact h
  | cons op rest ih => exact ih (step s op) (step_singletons_isSome s n op h)

/-- A name with no class binding keeps none under any operation other
than `bind` on that name. -/

theorem step_classes_none (s : ServicesState) (n : Name) (op : Op)
    (h : mapGet s.classes n = none)
    (hop : ∀ cb, op ≠ Op.bindOp n cb) :
    mapGet ((step s op).classes) n = none := by
  cases op with
  | bindOp m cb =>
    by_cases hmn : m = n
    · subst hmn; exact absurd rfl (hop cb)
    · simpa [step, bind,
        mapGet_set_ne s.classes m n _ (Ne.symm hmn)] using h
  | singletonOp m cb => exact h
  | instanceOp m v => exact h
  | getOp m =>
    show mapGet ((get s m).2).classes n = none
    rw [get_classes]; exact h

theorem run_classes_none (s : ServicesState) (n : Name) (ops : List Op)
    (h : mapGet s.classes n = none)
    (hops : ∀ cb, Op.bindOp n cb ∉ ops) :
    mapGet ((run s ops).classes) n = none := by
  induction ops generalizing s with
  | nil => exact h
  | cons op rest ih =>
    have hop : ∀ cb, op ≠ Op.bindOp n cb := by
      intro cb hv
      exact hops cb (by simp [hv])
    have hrest : ∀ cb, Op.bindOp n cb ∉ rest := by
      intro cb hv
      exact hops cb (by simp [hv])
    exact ih (step s op) (step_classes_none s n op h hop) hrest

/-- Resolving a name whose memoized entry exists (and that has no class
binding) returns exactly the stored promise and leaves the container
untouched. -/

theorem get_memoized (s : ServicesState) (n : Name) (p : PVal)
    (hc : mapGet s.classes n = none)
    (hm : mapGet s.singletons n = some p) :
    get s n = (GetResult.ok p, s) := by
  unfold get
  rw [hc, hm]

theorem step_SingInv (s : ServicesState) (n : Name) (op : Op)
    (h : SingInv s n) : SingInv (step s op) n := by
  obtain ⟨h1, h2⟩ := h
  cases op with
  | bindOp m cb => exact ⟨h1, h2⟩
  | singletonOp m cb => exact ⟨h1, h2⟩
  | instanceOp m v =>
    exact ⟨h1, fun hnone => h2 (mapGet_set_none s.singletons m n _ hnone)⟩
  | getOp m =>
    show SingInv ((get s m).2) n
    unfold get classesHandler
    cases hc : mapGet s.classes m with
    | some cb =>
      constructor
      · simpa [singletonInvocationCount, List.countP_append,
          List.countP_cons] using h1
      · intro hnone
        simpa [singletonInvocationCount, List.countP_append,
          List.countP_cons] using h2 hnone
    | none =>
      cases hm : mapGet s.singletons m with
      | some p => exact ⟨h1, h2⟩
      | none =>
        cases hs : mapGet s.singletonCallbacks m with
        | none => exact ⟨h1, h2⟩
        | some cb =>
          by_cases hmn : m = n
          · subst hmn
            have hz : singletonInvocationCount s m = 0 := h2 hm
            constructor
            · unfold singletonInvocationCount at hz ⊢
              rw [List.countP_append, hz]
              simp [List.countP_cons]
            · intro hnone
              rw [mapGet_set_self] at hnone
              exact absurd hnone (by simp)
          · constructor
            · simpa [singletonInvocationCount, List.countP_append,
                List.countP_cons, hmn] using h1
            · intro hnone
              rw [mapGet_set_ne s.singletons m n _ (Ne.symm hmn)] at hnone
              simpa [singletonInvocationCount, List.countP_append,
                List.countP_cons, hmn] using h2 hnone

theorem run_SingInv (s : ServicesState) (n : Name) (ops : List Op)
    (h : SingInv s n) : SingInv (run s ops) n := by
  induction ops generalizing s with
  | nil => exact h
  | cons op rest ih => exact ih (step s op) (step_SingInv s n op h)

/-- Over any trace from a fresh container, the singleton branch of
`get` fires at most once for each name. -/

theorem singleton_invoked_at_most_once (b : Bool) (n : Name)
    (tr : List Op) :
    singletonInvocationCount (run (initState b) tr) n ≤ 1 :=
  (run_SingInv (initState b) n tr ⟨by simp [singletonInvocationCount,
    initState], by intro _; simp [singletonInvocationCount, initState]⟩).1

/-! ## Claims about the resolver / registry core -/

/-- C1: for a name registered via `singleton` (no class binding, no
prior memoized result), the first `get` invokes the factory and stores
the pending promise in the memoized map in the same atomic step;
every later `get` for that name (while the promise is pending or
after), under any trace that does not re-register the name via `bind`
or `instance`, returns the identical promise without invoking the
factory again; and over any trace of a fresh container the singleton
branch invokes the factory at most once for the name. -/

theorem C1_singleton_memoized_at_most_once
    (b : Bool) (s : ServicesState) (n : Name) (f : Nat) (ops : List Op)
    (hc : mapGet s.classes n = none)
    (hm : mapGet s.singletons n = none)
    (hops_bind : ∀ cb, Op.bindOp n cb ∉ ops)
    (hops_inst : ∀ v, Op.instanceOp n v ∉ ops) :
    (get (singleton s n f) n).1
        = GetResult.ok (PVal.factoryCall f s.invocations.length)
    ∧ ((get (singleton s n f) n).2).invocations
        = s.invocations ++ [⟨f, n, Branch.singletonBranch⟩]
    ∧ mapGet (((get (singleton s n f) n).2).singletons) n
        = some (PVal.factoryCall f s.invocations.length)
    ∧ get (run ((get (singleton s n f) n).2) ops) n
        = (GetResult.ok (PVal.factoryCall f s.invocations.length),
           run ((get (singleton s n f) n).2) ops)
    ∧ ∀ tr : List Op,
        singletonInvocationCount (run (initState b) tr) n ≤ 1 := by
  have hc₁ : mapGet (singleton s n f).classes n = none := hc
  have hm₁ : mapGet (singleton s n f).singletons n = none := hm
  have hs₁ : mapGet (singleton s n f).singletonCallbacks n = some f :=
    mapGet_set_self s.singletonCallbacks n f
  have hget : get (singleton s n f) n =
      (GetResult.ok (PVal.factoryCall f s.invocations.length),
       { singleton s n f with
          singletons := mapSet s.singletons n
            (PVal.factoryCall f s.invocations.length),
          invocations := s.invocations ++ [⟨f, n, Branch.singletonBranch⟩] }) := by
    unfold get
    rw [hc₁, hm₁, hs₁]
    rfl
  refine ⟨by rw [hget], by rw [hget], ?_, ?_,
    fun tr => singleton_invoked_at_most_once b n tr⟩
  · rw [hget]
    exact mapGet_set_self s.singletons n _
  · rw [hget]
    have hcr : mapGet ((run
        { singleton s n f with
          singletons := mapSet s.singletons n
            (PVal.factoryCall f s.invocations.length),
          invocations := s.invocations ++ [⟨f, n, Branch.singletonBranch⟩] }
        ops).classes) n = none :=
      run_classes_none _ n ops hc hops_bind
    have hmr := run_singletons_stable
      { singleton s n f with
        singletons := mapSet s.singletons n
          (PVal.factoryCall f s.invocations.length),
        invocations := s.invocations ++ [⟨f, n, Branch.singletonBranch⟩] }
      n (PVal.factoryCall f s.invocations.length) ops
      (mapGet_set_self s.singletons n _) hops_inst
    exact get_memoized _ n _ hcr hmr

/-- C1 witness: a fresh container, singleton `"a"` with factory `0`,
one interleaved `get` before the second `get`. -/

theorem C1_witness :
    (get (singleton (initState true) "a" 0) "a").1
        = GetResult.ok (PVal.factoryCall 0 0)
    ∧ ((get (singleton (initState true) "a" 0) "a").2).invocations
        = [⟨0, "a", Branch.singletonBranch⟩]
    ∧ mapGet (((get (singleton (initState true) "a" 0) "a").2).singletons) "a"
        = some (PVal.factoryCall 0 0)
    ∧ get (run ((get (singleton (initState true) "a" 0) "a").2)
          [Op.getOp "a"]) "a"
        = (GetResult.ok (PVal.factoryCall 0 0),
           run ((get (singleton (initState true) "a" 0) "a").2)
             [Op.getOp "a"])
    ∧ ∀ tr : List Op,
        singletonInvocationCount (run (initState true) tr) "a" ≤ 1 :=
  C1_singleton_memoized_at_most_once true (initState true) "a" 0
    [Op.getOp "a"] rfl rfl (by intro cb; simp) (by intro v; simp)

/-- C2: with a class binding in place, every `get` invokes the bound
factory afresh (so two calls return distinct, non-reference-equal
promises), nothing is memoized and no map or log changes; and the
memoized map is consulted only when no class binding exists. -/

theorem C2_class_binding_fresh_each_get
    (s : ServicesState) (n : Name) (f : Nat)
    (hc : mapGet s.classes n = some f) :
    (get s n).1 = GetResult.ok (PVal.factoryCall f s.invocations.length)
    ∧ ((get s n).2).invocations
        = s.invocations ++ [⟨f, n, Branch.classBranch⟩]
    ∧ ((get s n).2).classes = s.classes
    ∧ ((get s n).2).singletons = s.singletons
    ∧ ((get s n).2).singletonCallbacks = s.singletonCallbacks
    ∧ ((get s n).2).log = s.log
    ∧ (get ((get s n).2) n).1
        = GetResult.ok (PVal.factoryCall f (s.invocations.length + 1))
    ∧ (get s n).1 ≠ (get ((get s n).2) n).1
    ∧ ∀ (s' : ServicesState) (p : PVal), mapGet s'.classes n = none →
        mapGet s'.singletons n = some p →
        get s' n = (GetResult.ok p, s') := by
  have hget : get s n =
      (GetResult.ok (PVal.factoryCall f s.invocations.length),
       { s with
          invocations := s.invocations ++ [⟨f, n, Branch.classBranch⟩] }) := by
    unfold get classesHandler
    rw [hc]
  have hget2 : (get ((get s n).2) n).1
      = GetResult.ok (PVal.factoryCall f (s.invocations.length + 1)) := by
    rw [hget]
    unfold get classesHandler
    rw [show mapGet ({ s with
          invocations := s.invocations ++ [⟨f, n, Branch.classBranch⟩]
        } : ServicesState).classes n = some f from hc]
    simp
  refine ⟨by rw [hget], by rw [hget], by rw [hget], by rw [hget],
    by rw [hget], by rw [hget], hget2, ?_,
    fun s' p hcn hmn => get_memoized s' n p hcn hmn⟩
  rw [hget2, hget]
  simp

/-- C2 witness: bind `"a"` to factory `7` and resolve it twice. -/

theorem C2_witness :
    (get (bind (initState true) "a" 7) "a").1
        = GetResult.ok (PVal.factoryCall 7 0)
    ∧ ((get (bind (initState true) "a" 7) "a").2).invocations
        = [⟨7, "a", Branch.classBranch⟩]
    ∧ ((get (bind (initState true) "a" 7) "a").2).classes
        = (bind (initState true) "a" 7).classes
    ∧ ((get (bind (initState true) "a" 7) "a").2).singletons
        = (bind (initState true) "a" 7).singletons
    ∧ ((get (bind (initState true) "a" 7) "a").2).singletonCallbacks
        = (bind (initState true) "a" 7).singletonCallbacks
    ∧ ((get (bind (initState true) "a" 7) "a").2).log
        = (bind (initState true) "a" 7).log
    ∧ (get ((get (bind (initState true) "a" 7) "a").2) "a").1
        = GetResult.ok (PVal.factoryCall 7 1)
    ∧ (get (bind (initState true) "a" 7) "a").1
        ≠ (get ((get (bind (initState true) "a" 7) "a").2) "a").1
    ∧ ∀ (s' : ServicesState) (p : PVal), mapGet s'.classes "a" = none →
        mapGet s'.singletons "a" = some p →
        get s' "a" = (GetResult.ok p, s') :=
  C2_class_binding_fresh_each_get (bind (initState true) "a" 7) "a" 7 rfl

/-- C3: `instance` followed by `get` is the identity on the stored
value: the `get` resolves to exactly the stored promise, invokes no
factory, and leaves the container untouched; this persists across any
further trace that does not re-register the name. -/

theorem C3_instance_then_get_identity
    (s : ServicesState) (n : Name) (v : Nat) (ops : List Op)
    (hc : mapGet s.classes n = none)
    (hops_bind : ∀ cb, Op.bindOp n cb ∉ ops)
    (hops_inst : ∀ w, Op.instanceOp n w ∉ ops) :
    get (instance' s n v) n
        = (GetResult.ok (PVal.resolvedVal v), instance' s n v)
    ∧ (instance' s n v).invocations = s.invocations
    ∧ get (run (instance' s n v) ops) n
        = (GetResult.ok (PVal.resolvedVal v), run (instance' s n v) ops) := by
  have hm₁ : mapGet (instance' s n v).singletons n
      = some (PVal.resolvedVal v) := mapGet_set_self s.singletons n _
  refine ⟨get_memoized (instance' s n v) n _ hc hm₁, rfl, ?_⟩
  have hcr : mapGet ((run (instance' s n v) ops).classes) n = none :=
    run_classes_none (instance' s n v) n ops hc hops_bind
  have hmr : mapGet ((run (instance' s n v) ops).singletons) n
      = some (PVal.resolvedVal v) :=
    run_singletons_stable (instance' s n v) n _ ops hm₁ hops_inst
  exact get_memoized _ n _ hcr hmr

/-- C3 witness: store value `5` under `"a"`, read it back twice with an
unrelated rejected `get` in between. -/

theorem C3_witness :
    get (instance' (initState true) "a" 5) "a"
        = (GetResult.ok (PVal.resolvedVal 5), instance' (initState true) "a" 5)
    ∧ (instance' (initState true) "a" 5).invocations
        = (initState true).invocations
    ∧ get (run (instance' (initState true) "a" 5) [Op.getOp "b"]) "a"
        = (GetResult.ok (PVal.resolvedVal 5),
           run (instance' (initState true) "a" 5) [Op.getOp "b"]) :=
  C3_instance_then_get_identity (initState true) "a" 5 [Op.getOp "b"] rfl
    (by intro cb; simp) (by intro w; simp)

/-- C4: `get` on a fully unregistered name rejects producing no value,
invokes the error sink exactly once (when logging is not suppressed),
and leaves all three registry maps (and the invocation record) as they
were. -/

theorem C4_not_found_rejects_and_logs_once
    (s : ServicesState) (n : Name)
    (hc : mapGet s.classes n = none)
    (hm : mapGet s.singletons n = none)
    (hcb : mapGet s.singletonCallbacks n = none)
    (hsup : s.log.suppress = false) :
    (get s n).1 = GetResult.rejected
    ∧ ((get s n).2).log.errorCalls = s.log.errorCalls ++ [notFoundMsg n]
    ∧ ((get s n).2).log.infoCalls = s.log.infoCalls
    ∧ ((get s n).2).classes = s.classes
    ∧ ((get s n).2).singletons = s.singletons
    ∧ ((get s n).2).singletonCallbacks = s.singletonCallbacks
    ∧ ((get s n).2).invocations = s.invocations := by
  have hget : get s n =
      (GetResult.rejected, { s with log := s.log.error (notFoundMsg n) }) := by
    unfold get
    rw [hc, hm, hcb]
  have hlog : s.log.error (notFoundMsg n)
      = { s.log with errorCalls := s.log.errorCalls ++ [notFoundMsg n] } := by
    simp [Log.error, hsup]
  refine ⟨by rw [hget], ?_, ?_, by rw [hget], by rw [hget], by rw [hget],
    by rw [hget]⟩
  · rw [hget]
    show (s.log.error (notFoundMsg n)).errorCalls = _
    rw [hlog]
  · rw [hget]
    show (s.log.error (notFoundMsg n)).infoCalls = _
    rw [hlog]

/-- C4 witness: an unregistered name on a fresh, unsuppressed
container. -/

theorem C4_witness :
    (get (initState false) "nope").1 = GetResult.rejected
    ∧ ((get (initState false) "nope").2).log.errorCalls
        = (initState false).log.errorCalls ++ [notFoundMsg "nope"]
    ∧ ((get (initState false) "nope").2).log.infoCalls
        = (initState false).log.infoCalls
    ∧ ((get (initState false) "nope").2).classes = (initState false).classes
    ∧ ((get (initState false) "nope").2).singletons
        = (initState false).singletons
    ∧ ((get (initState false) "nope").2).singletonCallbacks
        = (initState false).singletonCallbacks
    ∧ ((get (initState false) "nope").2).invocations
        = (initState false).invocations :=
  C4_not_found_rejects_and_logs_once (initState false) "nope" rfl rfl rfl rfl

/-- C9 counterexample: a second `instance` call for the same name
replaces the memoized entry (`singletons.set` overwrites), and a
subsequent `get` returns the new promise, not the one the map held
first — refuting "never removed or replaced ... regardless of any later
instance, bind, or singleton calls". -/

theorem C9_counterexample :
    mapGet (instance' (initState true) "a" 0).singletons "a"
        = some (PVal.resolvedVal 0)
    ∧ mapGet (instance' (instance' (initState true) "a" 0) "a" 1).singletons "a"
        = some (PVal.resolvedVal 1)
    ∧ (get (instance' (instance' (initState true) "a" 0) "a" 1) "a").1
        = GetResult.ok (PVal.resolvedVal 1)
    ∧ PVal.resolvedVal 1 ≠ PVal.resolvedVal 0 := by
  refine ⟨rfl, rfl, rfl, by simp⟩

/-- C9 amended: once the memoized map holds an entry for a name, the
entry is never *removed* (an entry of some form survives every trace);
it can be *replaced* only by a later `instance` call for that name; and
as long as no later `instance` or `bind` call is made for that name,
every subsequent `get` returns that same asynchronous value. -/

theorem C9_memoized_entry_stability
    (s : ServicesState) (n : Name) (p : PVal) (ops : List Op)
    (hm : mapGet s.singletons n = some p)
    (hc : mapGet s.classes n = none)
    (hno_inst : ∀ v, Op.instanceOp n v ∉ ops)
    (hno_bind : ∀ cb, Op.bindOp n cb ∉ ops) :
    mapGet (run s ops).singletons n = some p
    ∧ get (run s ops) n = (GetResult.ok p, run s ops)
    ∧ ∀ tr : List Op, (mapGet (run s tr).singletons n).isSome := by
  have h₁ := run_singletons_stable s n p ops hm hno_inst
  have h₂ := run_classes_none s n ops hc hno_bind
  exact ⟨h₁, get_memoized _ n p h₂ h₁,
    fun tr => run_singletons_isSome s n tr (by rw [hm]; rfl)⟩

/-- C9 witness: entry stored by `instance`, surviving a `singleton`
re-registration and an interleaved `get`. -/

theorem C9_witness :
    mapGet (run (instance' (initState true) "a" 3)
        [Op.singletonOp "a" 9, Op.getOp "a"]).singletons "a"
      = some (PVal.resolvedVal 3)
    ∧ get (run (instance' (initState true) "a" 3)
          [Op.singletonOp "a" 9, Op.getOp "a"]) "a"
        = (GetResult.ok (PVal.resolvedVal 3),
           run (instance' (initState true) "a" 3)
             [Op.singletonOp "a" 9, Op.getOp "a"])
    ∧ ∀ tr : List Op,
        (mapGet (run (instance' (initState true) "a" 3) tr).singletons
          "a").isSome :=
  C9_memoized_entry_stability (instance' (initState true) "a" 3) "a"
    (PVal.resolvedVal 3) [Op.singletonOp "a" 9, Op.getOp "a"] rfl rfl
    (by intro v; simp) (by intro cb; simp)

/-! ## Chain and trace lemmas -/

theorem runChain_snd (i : Nat) (hooks : List (HookTag × HookSpec)) :
    (runChain i hooks).2 = chainOk hooks := by
  induction hooks with
  | nil => rfl
  | cons th rest ih =>
    obtain ⟨t, h⟩ := th
    by_cases hth : h.throws
    · simp [runChain, chainOk, hth]
    · simp only [runChain, chainOk] at ih ⊢
      simp [hth, ih]

theorem runChain_events_mem (i : Nat) (hooks : List (HookTag × HookSpec))
    (e : PEvent) (he : e ∈ (runChain i hooks).1) :
    e.provider = i ∧ e.tag ∈ hooks.map Prod.fst := by
  induction hooks with
  | nil => simp [runChain] at he
  | cons th rest ih =>
    obtain ⟨t, h⟩ := th
    by_cases hth : h.throws
    · simp [runChain, hth] at he
      subst he
      simp
    · simp [runChain, hth] at he
      rcases he with he | he
      · subst he; simp
      · obtain ⟨h1, h2⟩ := ih he
        exact ⟨h1, by simp [h2]⟩

theorem runChain_ok_events (i : Nat) (hooks : List (HookTag × HookSpec))
    (h : chainOk hooks = true) :
    (runChain i hooks).1 = hooks.map (fun th => ⟨i, th.1⟩) := by
  induction hooks with
  | nil => rfl
  | cons th rest ih =>
    obtain ⟨t, hk⟩ := th
    simp only [chainOk, List.all_cons, Bool.and_eq_true, Bool.not_eq_true'] at h
    simp [runChain, h.1, ih h.2, chainOk]

theorem optHook_mem (t : HookTag) (o : Option HookSpec)
    (th : HookTag × HookSpec) (h : th ∈ optHook t o) : th.1 = t := by
  cases o with
  | none => simp [optHook] at h
  | some hk => simp [optHook] at h; simp [h]

theorem registerHooks_tags (p : Provider) (t : HookTag)
    (h : t ∈ (registerHooks p).map Prod.fst) : isRegisterTag t = true := by
  simp only [registerHooks, List.map_append, List.mem_append,
    List.mem_map] at h
  rcases h with (⟨th, hth, rfl⟩ | ⟨th, hth, rfl⟩) | ⟨th, hth, rfl⟩
  · rw [optHook_mem _ _ _ hth]; rfl
  · simp at hth; simp [hth, isRegisterTag]
  · rw [optHook_mem _ _ _ hth]; rfl

theorem bootHooks_tags (p : Provider) (t : HookTag)
    (h : t ∈ (bootHooks p).map Prod.fst) : isBootTag t = true := by
  simp only [bootHooks, List.map_append, List.mem_append,
    List.mem_map] at h
  rcases h with (⟨th, hth, rfl⟩ | ⟨th, hth, rfl⟩) | ⟨th, hth, rfl⟩
  · rw [optHook_mem _ _ _ hth]; rfl
  · rw [optHook_mem _ _ _ hth]; rfl
  · rw [optHook_mem _ _ _ hth]; rfl

theorem isBootTag_of_isRegisterTag (t : HookTag)
    (h : isRegisterTag t = true) : isBootTag t = false := by
  cases t <;> simp [isRegisterTag, isBootTag] at h ⊢

theorem isRegisterTag_of_isBootTag (t : HookTag)
    (h : isBootTag t = true) : isRegisterTag t = false := by
  cases t <;> simp [isRegisterTag, isBootTag] at h ⊢

theorem chainsFrom_mem (f : Nat → Provider → List PEvent) (k : Nat)
    (ps : List Provider) (c : List PEvent) (h : c ∈ chainsFrom f k ps) :
    ∃ j, ∃ hj : j < ps.length, c = f (k + j) (ps.get ⟨j, hj⟩) := by
  induction ps generalizing k with
  | nil => simp [chainsFrom] at h
  | cons p rest ih =>
    simp only [chainsFrom, List.mem_cons] at h
    rcases h with rfl | h
    · exact ⟨0, by simp, by simp⟩
    · obtain ⟨j, hj, rfl⟩ := ih (k + 1) h
      exact ⟨j + 1, by simpa using Nat.succ_lt_succ hj,
        by simp [Nat.add_assoc, Nat.add_comm 1 j]⟩

theorem chainsFrom_get_mem (f : Nat → Provider → List PEvent) (k : Nat)
    (ps : List Provider) (j : Nat) (hj : j < ps.length) :
    f (k + j) (ps.get ⟨j, hj⟩) ∈ chainsFrom f k ps := by
  induction ps generalizing k j with
  | nil => simp at hj
  | cons p rest ih =>
    cases j with
    | zero => simp [chainsFrom]
    | succ j' =>
      have hj' : j' < rest.length := Nat.lt_of_succ_lt_succ hj
      have := ih (k + 1) j' hj'
      simp only [chainsFrom, List.mem_cons]
      right
      simpa [Nat.add_assoc, Nat.add_comm 1 j'] using this

/-- Every event of a register-phase trace is a register-class hook of
the provider at its index. -/

theorem RegTrace_tags (ps : List Provider) (rt : List PEvent)
    (h : RegTrace ps rt) (e : PEvent) (he : e ∈ rt) :
    isRegisterTag e.tag = true := by
  have hj : e ∈ (chainsFrom regEvents 0 ps).flatten := (h.1.mem_iff).mp he
  obtain ⟨c, hc, hec⟩ := List.mem_flatten.mp hj
  obtain ⟨j, hjlen, rfl⟩ := chainsFrom_mem regEvents 0 ps c hc
  have := runChain_events_mem (0 + j) (registerHooks (ps.get ⟨j, hjlen⟩)) e hec
  exact registerHooks_tags _ _ this.2

/-- Every event of a boot-phase trace is a boot-class hook. -/

theorem BootTrace_tags (ps : List Provider) (bt : List PEvent)
    (h : BootTrace ps bt) (e : PEvent) (he : e ∈ bt) :
    isBootTag e.tag = true := by
  have hj : e ∈ (chainsFrom bootEvents 0 ps).flatten := (h.1.mem_iff).mp he
  obtain ⟨c, hc, hec⟩ := List.mem_flatten.mp hj
  obtain ⟨j, hjlen, rfl⟩ := chainsFrom_mem bootEvents 0 ps c hc
  have := runChain_events_mem (0 + j) (bootHooks (ps.get ⟨j, hjlen⟩)) e hec
  exact bootHooks_tags _ _ this.2

/-! ## Log lemmas for the boot phase -/

theorem log_error_suppress (l : Log) (m : String) :
    (l.error m).suppress = l.suppress := by
  unfold Log.error
  split <;> rfl

theorem log_error_mem (l : Log) (m m' : String) (h : m ∈ l.errorCalls) :
    m ∈ (l.error m').errorCalls := by
  unfold Log.error
  split
  · exact h
  · simp [h]

theorem log_error_self (l : Log) (m : String) (h : l.suppress = false) :
    m ∈ (l.error m).errorCalls := by
  simp [Log.error, h]

theorem bootPhaseLog_mem (l : Log) (k : Nat) (ps : List Provider)
    (m : String) (h : m ∈ l.errorCalls) :
    m ∈ (bootPhaseLog l k ps).errorCalls := by
  induction ps generalizing l k with
  | nil => exact h
  | cons p rest ih =>
    show m ∈ (bootPhaseLog (if bootOk p then l else l.error (bootFailedMsg k))
      (k + 1) rest).errorCalls
    apply ih
    split
    · exact h
    · exact log_error_mem l m _ h

theorem bootPhaseLog_fail_mem (l : Log) (k : Nat) (ps : List Provider)
    (j : Nat) (hj : j < ps.length) (hsup : l.suppress = false)
    (hfail : bootOk (ps.get ⟨j, hj⟩) = false) :
    bootFailedMsg (k + j) ∈ (bootPhaseLog l k ps).errorCalls := by
  induction ps generalizing l k j with
  | nil => simp at hj
  | cons p rest ih =>
    cases j with
    | zero =>
      have hp : bootOk p = false := hfail
      show bootFailedMsg (k + 0)
        ∈ (bootPhaseLog (if bootOk p then l else l.error (bootFailedMsg k))
            (k + 1) rest).errorCalls
      rw [hp]
      simp only [Bool.false_eq_true, if_false, Nat.add_zero]
      exact bootPhaseLog_mem _ (k + 1) rest _ (log_error_self l _ hsup)
    | succ j' =>
      have hj' : j' < rest.length := Nat.lt_of_succ_lt_succ hj
      have hs' : (if bootOk p then l else l.error (bootFailedMsg k)).suppress
          = false := by
        split
        · exact hsup
        · rw [log_error_suppress]; exact hsup
      have := ih (if bootOk p then l else l.error (bootFailedMsg k))
        (k + 1) j' hj' hs' hfail
      show bootFailedMsg (k + (j' + 1))
        ∈ (bootPhaseLog (if bootOk p then l else l.error (bootFailedMsg k))
            (k + 1) rest).errorCalls
      have harith : k + (j' + 1) = k + 1 + j' := by omega
      rw [harith]
      exact this

/-! ## Claims about the lifecycle orchestrator -/

/-- C5: if any provider's register chain raises at any of
`beforeRegister` / `register` / `afterRegister`, the `add` call
rejects and no boot-class hook of any provider is ever executed in any
possible trace of that call. -/

theorem C5_register_failure_aborts_boot
    (ps : List Provider) (i : Nat) (hi : i < ps.length)
    (hfail : regOk (ps.get ⟨i, hi⟩) = false) :
    addOutcome ps = AddOutcome.rejected
    ∧ ∀ t, AddTrace ps t → ∀ e ∈ t,
        e.tag ≠ HookTag.beforeBoot ∧ e.tag ≠ HookTag.boot
          ∧ e.tag ≠ HookTag.afterBoot := by
  have hphase : registerPhaseOk ps = false := by
    unfold registerPhaseOk
    rw [List.all_eq_false]
    exact ⟨ps.get ⟨i, hi⟩, List.get_mem ps i hi, by simpa using hfail⟩
  refine ⟨by simp [addOutcome, hphase], ?_⟩
  intro t ht e he
  unfold AddTrace at ht
  rw [hphase] at ht
  simp only [Bool.false_eq_true, if_false] at ht
  obtain ⟨rt, hrt, rfl⟩ := ht
  have hreg := RegTrace_tags ps t hrt e he
  have hb := isBootTag_of_isRegisterTag _ hreg
  refine ⟨?_, ?_, ?_⟩ <;> intro hEq <;> rw [hEq] at hb <;>
    simp [isBootTag] at hb

/-- C5 witness: a single provider whose `register` throws. -/

theorem C5_witness :
    addOutcome [⟨none, ⟨[], true⟩, none, none, none, none⟩]
        = AddOutcome.rejected
    ∧ ∀ t, AddTrace [⟨none, ⟨[], true⟩, none, none, none, none⟩] t →
        ∀ e ∈ t,
          e.tag ≠ HookTag.beforeBoot ∧ e.tag ≠ HookTag.boot
            ∧ e.tag ≠ HookTag.afterBoot :=
  C5_register_failure_aborts_boot
    [⟨none, ⟨[], true⟩, none, none, none, none⟩] 0 (by decide) (by decide)

/-- C6: when every register chain completes and some provider's boot
chain raises, `add` still resolves, the failure is reported through the
error sink (naming the offending provider), every provider's executed
boot events appear in every trace, and every provider whose own boot
chain does not throw runs its full `beforeBoot` → `boot` → `afterBoot`
chain. -/

theorem C6_boot_failure_isolated
    (ps : List Provider) (q : Nat) (hq : q < ps.length) (l : Log)
    (hreg : registerPhaseOk ps = true)
    (hfail : bootOk (ps.get ⟨q, hq⟩) = false)
    (hsup : l.suppress = false) :
    addOutcome ps = AddOutcome.resolved
    ∧ bootFailedMsg q ∈ (bootPhaseLog l 0 ps).errorCalls
    ∧ (∀ t, AddTrace ps t → ∀ j, ∀ hj : j < ps.length,
        (bootEvents j (ps.get ⟨j, hj⟩)).Sublist t)
    ∧ ∀ j, ∀ hj : j < ps.length, bootOk (ps.get ⟨j, hj⟩) = true →
        bootEvents j (ps.get ⟨j, hj⟩)
          = (bootHooks (ps.get ⟨j, hj⟩)).map (fun th => ⟨j, th.1⟩) := by
  refine ⟨by simp [addOutcome, hreg], ?_, ?_, ?_⟩
  · have := bootPhaseLog_fail_mem l 0 ps q hq hsup hfail
    simpa using this
  · intro t ht j hj
    unfold AddTrace at ht
    rw [hreg] at ht
    simp only [if_true] at ht
    obtain ⟨rt, bt, hrt, hbt, rfl⟩ := ht
    have hc := chainsFrom_get_mem bootEvents 0 ps j hj
    have h1 : (bootEvents j (ps.get ⟨j, hj⟩)).Sublist bt :=
      hbt.2 _ (by simpa using hc)
    exact h1.trans (List.sublist_append_right rt bt)
  · intro j hj hok
    exact runChain_ok_events j (bootHooks (ps.get ⟨j, hj⟩)) hok

/-- C6 witness: provider 0's `boot` throws, provider 1's completes. -/

theorem C6_witness :
    addOutcome [bootFailProvider, bootOkProvider] = AddOutcome.resolved
    ∧ bootFailedMsg 0 ∈ (bootPhaseLog ⟨false, [], []⟩ 0
        [bootFailProvider, bootOkProvider]).errorCalls
    ∧ (∀ t, AddTrace [bootFailProvider, bootOkProvider] t →
        ∀ j, ∀ hj : j <
            ([bootFailProvider, bootOkProvider] : List Provider).length,
          (bootEvents j (([bootFailProvider, bootOkProvider] :
            List Provider).get ⟨j, hj⟩)).Sublist t)
    ∧ ∀ j, ∀ hj : j <
          ([bootFailProvider, bootOkProvider] : List Provider).length,
        bootOk (([bootFailProvider, bootOkProvider] :
            List Provider).get ⟨j, hj⟩) = true →
        bootEvents j (([bootFailProvider, bootOkProvider] :
            List Provider).get ⟨j, hj⟩)
          = (bootHooks (([bootFailProvider, bootOkProvider] :
              List Provider).get ⟨j, hj⟩)).map (fun th => ⟨j, th.1⟩) :=
  C6_boot_failure_isolated [bootFailProvider, bootOkProvider] 0 (by decide)
    ⟨false, [], []⟩ (by decide) (by decide) rfl

/-- C7: each provider's hooks execute strictly in chain order — its
chain's event sequence is a subsequence of every possible trace (the
`await`s sequence one chain even as chains interleave) — and the boot
phase starts only after the register chains of all providers have fully
completed: in every trace, every boot-class event comes after every
register-class event. -/

theorem C7_strict_hook_and_phase_order
    (ps : List Provider) (t : List PEvent) (ht : AddTrace ps t) :
    (∀ i, ∀ hi : i < ps.length,
        (regEvents i (ps.get ⟨i, hi⟩)).Sublist t)
    ∧ (registerPhaseOk ps = true →
        ∀ i, ∀ hi : i < ps.length,
          (regEvents i (ps.get ⟨i, hi⟩)
            ++ bootEvents i (ps.get ⟨i, hi⟩)).Sublist t)
    ∧ ∀ j k, ∀ hj : j < t.length, ∀ hk : k < t.length,
        isBootTag (t.get ⟨j, hj⟩).tag = true →
        isRegisterTag (t.get ⟨k, hk⟩).tag = true → k < j := by
  unfold AddTrace at ht
  by_cases hphase : registerPhaseOk ps = true
  · rw [hphase] at ht
    simp only [if_true] at ht
    obtain ⟨rt, bt, hrt, hbt, rfl⟩ := ht
    refine ⟨?_, ?_, ?_⟩
    · intro i hi
      exact (hrt.2 _ (by simpa using
        chainsFrom_get_mem regEvents 0 ps i hi)).trans
        (List.sublist_append_left rt bt)
    · intro _ i hi
      exact List.Sublist.append
        (hrt.2 _ (by simpa using chainsFrom_get_mem regEvents 0 ps i hi))
        (hbt.2 _ (by simpa using chainsFrom_get_mem bootEvents 0 ps i hi))
    · intro j k hj hk hbtag hrtag
      have hjlen : rt.length ≤ j := by
        by_contra hlt
        push_neg at hlt
        have hgetj : (rt ++ bt).get ⟨j, hj⟩ = rt.get ⟨j, hlt⟩ := by
          simp [List.get_eq_getElem, List.getElem_append_left hlt]
        have hmem : (rt ++ bt).get ⟨j, hj⟩ ∈ rt :=
          hgetj ▸ List.get_mem rt j hlt
        have htag := RegTrace_tags ps rt hrt _ hmem
        rw [isBootTag_of_isRegisterTag _ htag] at hbtag
        exact absurd hbtag (by simp)
      have hklen : k < rt.length := by
        by_contra hge
        push_neg at hge
        have hkb : k - rt.length < bt.length := by
          have := hk
          simp [List.length_append] at this
          omega
        have hgetk : (rt ++ bt).get ⟨k, hk⟩
            = bt.get ⟨k - rt.length, hkb⟩ := by
          simp [List.get_eq_getElem, List.getElem_append_right hge]
        have hmem : (rt ++ bt).get ⟨k, hk⟩ ∈ bt :=
          hgetk ▸ List.get_mem bt _ hkb
        have htag := BootTrace_tags ps bt hbt _ hmem
        rw [isRegisterTag_of_isBootTag _ htag] at hrtag
        exact absurd hrtag (by simp)
      omega
  · have hneg : registerPhaseOk ps = false := by
      cases h : registerPhaseOk ps
      · rfl
      · exact absurd h hphase
    rw [hneg] at ht
    simp only [Bool.false_eq_true, if_false] at ht
    obtain ⟨rt, hrt, rfl⟩ := ht
    refine ⟨fun i hi => hrt.2 _ (by simpa using chainsFrom_get_mem regEvents 0 ps i hi),
      fun h => absurd h hphase, ?_⟩
    intro j k hj hk hbtag hrtag
    have hmem := List.get_mem t j hj
    have htag := RegTrace_tags ps t hrt _ hmem
    rw [isBootTag_of_isRegisterTag _ htag] at hbtag
    exact absurd hbtag (by simp)

/-- C7 witness: one provider, trace `beforeRegister, register, boot`. -/

theorem C7_witness :
    (∀ i, ∀ hi : i < ([regBootProvider] : List Provider).length,
        (regEvents i (([regBootProvider] : List Provider).get
          ⟨i, hi⟩)).Sublist
          [⟨0, HookTag.beforeRegister⟩, ⟨0, HookTag.register⟩,
           ⟨0, HookTag.boot⟩])
    ∧ (registerPhaseOk [regBootProvider] = true →
        ∀ i, ∀ hi : i < ([regBootProvider] : List Provider).length,
          (regEvents i (([regBootProvider] : List Provider).get ⟨i, hi⟩)
            ++ bootEvents i (([regBootProvider] : List Provider).get
                ⟨i, hi⟩)).Sublist
            [⟨0, HookTag.beforeRegister⟩, ⟨0, HookTag.register⟩,
             ⟨0, HookTag.boot⟩])
    ∧ ∀ j k,
        ∀ hj : j < ([⟨0, HookTag.beforeRegister⟩, ⟨0, HookTag.register⟩,
          ⟨0, HookTag.boot⟩] : List PEvent).length,
        ∀ hk : k < ([⟨0, HookTag.beforeRegister⟩, ⟨0, HookTag.register⟩,
          ⟨0, HookTag.boot⟩] : List PEvent).length,
        isBootTag (([⟨0, HookTag.beforeRegister⟩, ⟨0, HookTag.register⟩,
          ⟨0, HookTag.boot⟩] : List PEvent).get ⟨j, hj⟩).tag = true →
        isRegisterTag (([⟨0, HookTag.beforeRegister⟩,
          ⟨0, HookTag.register⟩,
          ⟨0, HookTag.boot⟩] : List PEvent).get ⟨k, hk⟩).tag = true →
        k < j :=
  C7_strict_hook_and_phase_order [regBootProvider]
    [⟨0, HookTag.beforeRegister⟩, ⟨0, HookTag.register⟩,
     ⟨0, HookTag.boot⟩]
    (show ∃ rt bt, RegTrace [regBootProvider] rt
        ∧ BootTrace [regBootProvider] bt
        ∧ ([⟨0, HookTag.beforeRegister⟩, ⟨0, HookTag.register⟩,
            ⟨0, HookTag.boot⟩] : List PEvent) = rt ++ bt from
      ⟨[⟨0, HookTag.beforeRegister⟩, ⟨0, HookTag.register⟩],
       [⟨0, HookTag.boot⟩],
       ⟨by decide, by decide⟩, ⟨by decide, by decide⟩, rfl⟩)

theorem log_info_eq (l : Log) (m : String) (h : l.suppress = false) :
    l.info m = { l with infoCalls := l.infoCalls ++ [m] } := by
  simp [Log.info, h]

theorem instantiateProviders_foldl (defs : List ProviderDef)
    (acc : List Provider) (l : Log) (hsup : l.suppress = false) :
    defs.foldl instantiateStep (acc, l)
      = (acc ++ (defs.filter
            (fun d => !(d.defer == some true))).map (fun d => d.provider),
         { l with infoCalls := l.infoCalls ++ List.map (fun d => deferMsg d.name) (List.filter (fun d => d.defer == some true) defs) }) := by
  induction defs generalizing acc l with
  | nil => simp
  | cons d rest ih =>
    match hd : d.defer with
    | some true =>
      have hsup' : (l.info (deferMsg d.name)).suppress = false := by
        rw [log_info_eq l _ hsup]
        exact hsup
      have hstep : instantiateStep (acc, l) d
          = (acc, l.info (deferMsg d.name)) := by
        simp [instantiateStep, hd]
      rw [List.foldl_cons, hstep, ih acc (l.info (deferMsg d.name)) hsup',
        log_info_eq l _ hsup]
      simp [List.filter_cons, hd]
    | some false =>
      have hstep : instantiateStep (acc, l) d
          = (acc ++ [d.provider], l) := by
        simp [instantiateStep, hd]
      rw [List.foldl_cons, hstep, ih (acc ++ [d.provider]) l hsup]
      simp [List.filter_cons, hd]
    | none =>
      have hstep : instantiateStep (acc, l) d
          = (acc ++ [d.provider], l) := by
        simp [instantiateStep, hd]
      rw [List.foldl_cons, hstep, ih (acc ++ [d.provider]) l hsup]
      simp [List.filter_cons, hd]

/-- C8: instantiation evaluates each definition's static deferral
predicate before construction, skips exactly the definitions whose
predicate returns true (each producing exactly one informational log
entry naming it, in input order, and never reaching the register or
boot phase, which operate on the returned instance list only),
constructs every other definition, and preserves the input order of
the constructed instances. -/

theorem C8_defer_skips_instantiation
    (defs : List ProviderDef) (l : Log) (hsup : l.suppress = false) :
    (instantiateProviders defs l).1
        = (defs.filter
            (fun d => !(d.defer == some true))).map (fun d => d.provider)
    ∧ ((instantiateProviders defs l).2).infoCalls
        = l.infoCalls
          ++ (defs.filter (fun d => d.defer == some true)).map
               (fun d => deferMsg d.name)
    ∧ ((instantiateProviders defs l).2).errorCalls = l.errorCalls := by
  unfold instantiateProviders
  rw [instantiateProviders_foldl defs [] l hsup]
  simp

/-- C8 witness: one deferred definition between two constructed ones. -/

theorem C8_witness :
    (instantiateProviders
        [⟨"A", some true, bootOkProvider⟩, ⟨"B", none, bootOkProvider⟩,
         ⟨"C", some false, regBootProvider⟩] ⟨false, [], []⟩).1
      = (([⟨"A", some true, bootOkProvider⟩, ⟨"B", none, bootOkProvider⟩,
          ⟨"C", some false, regBootProvider⟩] : List ProviderDef).filter
            (fun d => !(d.defer == some true))).map (fun d => d.provider)
    ∧ ((instantiateProviders
        [⟨"A", some true, bootOkProvider⟩, ⟨"B", none, bootOkProvider⟩,
         ⟨"C", some false, regBootProvider⟩] ⟨false, [], []⟩).2).infoCalls
      = (⟨false, [], []⟩ : Log).infoCalls
        ++ (([⟨"A", some true, bootOkProvider⟩, ⟨"B", none, bootOkProvider⟩,
            ⟨"C", some false, regBootProvider⟩] : List ProviderDef).filter
              (fun d => d.defer == some true)).map (fun d => deferMsg d.name)
    ∧ ((instantiateProviders
        [⟨"A", some true, bootOkProvider⟩, ⟨"B", none, bootOkProvider⟩,
         ⟨"C", some false, regBootProvider⟩] ⟨false, [], []⟩).2).errorCalls
      = (⟨false, [], []⟩ : Log).errorCalls :=
  C8_defer_skips_instantiation
    [⟨"A", some true, bootOkProvider⟩, ⟨"B", none, bootOkProvider⟩,
     ⟨"C", some false, regBootProvider⟩] ⟨false, [], []⟩ rfl

/-! ## Non-atomicity of `add` (no rollback) -/

theorem registerPhaseOk_eq_false (ps : List Provider) (i : Nat)
    (hi : i < ps.length) (hfail : regOk (ps.get ⟨i, hi⟩) = false) :
    registerPhaseOk ps = false := by
  unfold registerPhaseOk
  rw [List.all_eq_false]
  exact ⟨ps.get ⟨i, hi⟩, List.get_mem ps i hi, by simpa using hfail⟩

theorem run_append (s : ServicesState) (O₁ O₂ : List Op) :
    run s (O₁ ++ O₂) = run (run s O₁) O₂ :=
  List.foldl_append step s O₁ O₂

/-- C10: `add` is not atomic with respect to registry state.  When a
register chain throws, `add` rejects, and the container state at that
point is exactly the hooks' operations applied in some register-phase
interleaving `O` — the failure path performs no container mutation of
its own.  Every registry entry standing in that state survives (nothing
rolls it back) and resolves via `get`: memoized entries return their
stored promise, class bindings invoke their factory, and singleton
callbacks invoke theirs. -/

theorem C10_add_no_rollback
    (ps : List Provider) (i : Nat) (hi : i < ps.length)
    (hfail : regOk (ps.get ⟨i, hi⟩) = false) :
    addOutcome ps = AddOutcome.rejected
    ∧ ∀ (s : ServicesState) (O : List Op),
        Interleaving (ps.map regChainOps) O →
        (∀ O₁ O₂, O = O₁ ++ O₂ →
          ∀ n p, mapGet (run s O₁).singletons n = some p →
            (∀ v, Op.instanceOp n v ∉ O₂) →
            mapGet (run s O).singletons n = some p)
        ∧ (∀ n p, mapGet (run s O).classes n = none →
            mapGet (run s O).singletons n = some p →
            get (run s O) n = (GetResult.ok p, run s O))
        ∧ (∀ n f, mapGet (run s O).classes n = some f →
            (get (run s O) n).1
              = GetResult.ok (PVal.factoryCall f (run s O).invocations.length))
        ∧ (∀ n f, mapGet (run s O).classes n = none →
            mapGet (run s O).singletons n = none →
            mapGet (run s O).singletonCallbacks n = some f →
            (get (run s O) n).1
              = GetResult.ok
                  (PVal.factoryCall f (run s O).invocations.length)) := by
  refine ⟨by simp [addOutcome, registerPhaseOk_eq_false ps i hi hfail], ?_⟩
  intro s O _
  refine ⟨?_, ?_, ?_, ?_⟩
  · intro O₁ O₂ hsplit n p hmem hno
    rw [hsplit, run_append]
    exact run_singletons_stable (run s O₁) n p O₂ hmem hno
  · intro n p hcn hmn
    exact get_memoized (run s O) n p hcn hmn
  · intro n f hcn
    unfold get classesHandler
    rw [hcn]
  · intro n f hcn hmn hsn
    unfold get
    rw [hcn, hmn, hsn]

/-- C10 witness: the register hook binds `"a"` then throws; the entry
survives and resolves. -/

theorem C10_witness :
    addOutcome [partialRegisterProvider] = AddOutcome.rejected
    ∧ ∀ (s : ServicesState) (O : List Op),
        Interleaving ([partialRegisterProvider].map regChainOps) O →
        (∀ O₁ O₂, O = O₁ ++ O₂ →
          ∀ n p, mapGet (run s O₁).singletons n = some p →
            (∀ v, Op.instanceOp n v ∉ O₂) →
            mapGet (run s O).singletons n = some p)
        ∧ (∀ n p, mapGet (run s O).classes n = none →
            mapGet (run s O).singletons n = some p →
            get (run s O) n = (GetResult.ok p, run s O))
        ∧ (∀ n f, mapGet (run s O).classes n = some f →
            (get (run s O) n).1
              = GetResult.ok (PVal.factoryCall f (run s O).invocations.length))
        ∧ (∀ n f, mapGet (run s O).classes n = none →
            mapGet (run s O).singletons n = none →
            mapGet (run s O).singletonCallbacks n = some f →
            (get (run s O) n).1
              = GetResult.ok
                  (PVal.factoryCall f (run s O).invocations.length)) :=
  C10_add_no_rollback [partialRegisterProvider] 0 (by decide) (by decide)

end BeOurGuest
